import Mathlib

/-!
# Verification of the shrinking-ball medial-axis solver (`compute_ma.cpp`)

Shallow embedding of the core of `compute_ma.cpp` (masbcpp): the geometry
helpers `compute_radius` and `cos_angle`, the per-point shrinking-ball solver
`sb_point`, and the batch driver `sb_points`.

Modelling conventions:
* C++ `Point`/`Vector` (3 floats) are both embedded as `Vec3` over `ℝ`;
  floating-point arithmetic is idealized as exact real arithmetic.
* The `nanPoint` sentinel (a point filled with quiet NaN) is modelled as
  `none : Option Vec3`; a finite center is `some c`.
* The external kd-tree (`kdtree2`, not part of `src/`) is modelled from the
  spec as a black box: a point list `the_data` plus a query function
  returning the indices of the k nearest points, closest first.  The claims
  proved here only need well-formedness of the query result (correct length,
  in-range and pairwise-distinct indices), captured by `KDTree.Valid`.
* An out-of-bounds access into the query result vector or `the_data`
  (undefined behavior in C++) is modelled as the explicit outcome
  `SBResult.fail`.
* The C++ `while (1)` loop is modelled with explicit fuel (`sb_loop`);
  the termination theorem shows fuel 32 always suffices and the result is
  independent of any larger fuel, so `sb_point` runs the loop with fuel 32.
-/

open Classical

/-- A 3-component vector/point with real coordinates (models `Point`/`Vector`). -/
structure Vec3 where
  x : ℝ
  y : ℝ
  z : ℝ

instance : Inhabited Vec3 := ⟨⟨0, 0, 0⟩⟩

/-- Componentwise subtraction (Vrui `operator-` on points/vectors). -/
def Vec3.sub (a b : Vec3) : Vec3 := ⟨a.x - b.x, a.y - b.y, a.z - b.z⟩

instance : Sub Vec3 := ⟨Vec3.sub⟩

/-- Scaling a vector by a scalar (Vrui `vector * scalar`). -/
def Vec3.smul (r : ℝ) (v : Vec3) : Vec3 := ⟨r * v.x, r * v.y, r * v.z⟩

instance : SMul ℝ Vec3 := ⟨Vec3.smul⟩

/-- Componentwise negation (used by the driver for the outward pass). -/
def Vec3.neg (v : Vec3) : Vec3 := ⟨-v.x, -v.y, -v.z⟩

instance : Neg Vec3 := ⟨Vec3.neg⟩

/-- Dot product (Vrui `vector * vector`). -/
def Vec3.dot (a b : Vec3) : ℝ := a.x * b.x + a.y * b.y + a.z * b.z

/-- Euclidean magnitude (`Geometry::mag`). -/
noncomputable def Vec3.mag (v : Vec3) : ℝ := Real.sqrt (v.dot v)

/-- The run configuration: the globals of `compute_ma.cpp`
(`initial_radius`, `nan_for_initr`, `denoise_preserve`, `denoise_planar`),
passed explicitly. -/
structure MAConfig where
  initial_radius : ℝ
  nan_for_initr : Bool
  denoise_preserve : ℝ
  denoise_planar : ℝ

/-- `const Scalar delta_convergance = 1E-5`. -/
noncomputable def delta_convergance : ℝ := 1 / 100000

/-- `const unsigned int iteration_limit = 30`. -/
def iteration_limit : ℕ := 30

/-- `compute_radius(p, n, q)`:
`double d = Geometry::mag(p-q); Scalar cos_theta = (n * (p-q)) / d;
return d/(2*cos_theta);`. -/
noncomputable def compute_radius (p n q : Vec3) : ℝ :=
  let d : ℝ := (p - q).mag
  let cos_theta : ℝ := n.dot (p - q) / d
  d / (2 * cos_theta)

/-- `cos_angle(p, q)`: the dot-product cosine of the angle between two
vectors, clamped to `[-1, 1]`. -/
noncomputable def cos_angle (p q : Vec3) : ℝ :=
  let result : ℝ := p.dot q / (p.mag * q.mag)
  if result > 1 then 1
  else if result < -1 then -1
  else result

/-- Modelled from the spec: the external spatial index (`kdtree2` is not under
`src/`).  `the_data` is the fixed point set; `query c k` returns the indices
of the `k` nearest points to `c`, closest first (at most as many indices as
there are points).  The solver reads entries of this result vector by
position. -/
structure KDTree where
  the_data : List Vec3
  query : Vec3 → ℕ → List ℕ

/-- The query contract the claims need (spec: the index answers k-NN queries
over the fixed point set): a 2-NN query on an index with at least two points
yields exactly two in-range, pairwise-distinct indices.  Closest-first
ordering is not needed by any claim proved here. -/
def KDTree.Valid (t : KDTree) : Prop :=
  2 ≤ t.the_data.length ∧
  ∀ c : Vec3, (t.query c 2).length = 2 ∧
    (∀ i ∈ t.query c 2, i < t.the_data.length) ∧ (t.query c 2).Nodup

/-- The result record of `sb_point` (`ma_result`): the final ball center
(`none` = the `nanPoint` sentinel) and the feature index. -/
structure ma_result where
  c : Option Vec3
  qidx : ℤ

/-- Outcome of a full solver run: a proper result, or an out-of-bounds
access into the query result / data array (undefined behavior in C++). -/
inductive SBResult where
  | ok (res : ma_result)
  | fail

/-- The loop state of `sb_point`: `r_previous`, current center `c`,
last committed feature index `qidx`, iteration counter `j`. -/
structure SBState where
  r_previous : ℝ
  c : Vec3
  qidx : ℤ
  j : ℕ

/-- Result of one execution of the loop body: a `break` with the value
returned by `sb_point`, fall-through to the next iteration with an updated
state, or an out-of-bounds access. -/
inductive StepRes where
  | brk (res : ma_result)
  | cont (s : SBState)
  | fail

/-- Result of the nearest-neighbor part of the loop body (lines 94-119):
out-of-bounds read, the self-match `break` (branch 1, `q == p` and
`r_previous == initial_radius`), or the accepted neighbor `q` with its
index `qidx_next` (after the second-nearest fallback when `q == p`). -/
inductive QStep where
  | fail
  | selfBreak
  | ok (qidx_next : ℕ) (q : Vec3)

/-- Lines 94-119 of the loop body: query the two nearest points to `c`,
take the nearest as `q`; if `q == p`, either `break` (when
`r_previous == initial_radius`) or fall back to the second nearest. -/
noncomputable def qstep (cfg : MAConfig) (tree : KDTree) (p : Vec3) (s : SBState) : QStep :=
  match (tree.query s.c 2).get? 0 with
  | none => .fail
  | some i0 =>
    match tree.the_data.get? i0 with
    | none => .fail
    | some q0 =>
      if q0 = p then
        if s.r_previous = cfg.initial_radius then .selfBreak
        else
          match (tree.query s.c 2).get? 1 with
          | none => .fail
          | some i1 =>
            match tree.the_data.get? i1 with
            | none => .fail
            | some q1 => .ok i1 q1
      else .ok i0 q0

/-- Lines 164-175 of the loop body: convergence test, iteration cap, and the
committing tail (`r_previous = r; c = c_next; qidx = qidx_next; j++`).
Both `break`s return the *current* `c` and `qidx` (lines 173-174 have not
executed), which is what line 178 then returns. -/
noncomputable def post_denoise (s : SBState) (qidx_next : ℕ) (r : ℝ)
    (c_next : Vec3) : StepRes :=
  if |s.r_previous - r| < delta_convergance then .brk ⟨some s.c, s.qidx⟩
  else if iteration_limit < s.j then .brk ⟨some s.c, s.qidx⟩
  else .cont ⟨r, c_next, (qidx_next : ℤ), s.j + 1⟩

/-- Lines 139-162 of the loop body: compute `c_next = p - n*r` and apply the
two optional denoising rules (`denoise_preserve` or `denoise_planar`, both
truthy when nonzero), then fall through to `post_denoise`. -/
noncomputable def post_radius (cfg : MAConfig) (p n : Vec3) (s : SBState)
    (qidx_next : ℕ) (q : Vec3) (r : ℝ) : StepRes :=
  let c_next : Vec3 := p - r • n
  if cfg.denoise_preserve ≠ 0 ∨ cfg.denoise_planar ≠ 0 then
    let a : ℝ := cos_angle (p - c_next) (q - c_next)
    let separation_angle : ℝ := Real.arccos a
    if cfg.denoise_preserve ≠ 0 ∧
        (separation_angle < cfg.denoise_preserve ∧ 0 < s.j ∧ (q - p).mag < r) then
      .brk ⟨some s.c, s.qidx⟩
    else if cfg.denoise_planar ≠ 0 ∧
        (separation_angle < cfg.denoise_planar ∧ s.j = 0) then
      .brk ⟨(if cfg.nan_for_initr then none else some (p - cfg.initial_radius • n)), s.qidx⟩
    else post_denoise s qidx_next r c_next
  else post_denoise s qidx_next r c_next

/-- One execution of the `while (1)` body of `sb_point` (lines 86-176):
nearest-neighbor part, then `r = compute_radius(p,n,q)`, the wrong-side
guard (`r < 0`: reset `r = initial_radius`, no break) and the ceiling guard
(`r > initial_radius`: clamp and break), then the denoise/convergence tail. -/
noncomputable def sb_step (cfg : MAConfig) (tree : KDTree) (p n : Vec3)
    (s : SBState) : StepRes :=
  match qstep cfg tree p s with
  | .fail => .fail
  | .selfBreak =>
    .brk ⟨(if cfg.nan_for_initr then none else some (p - cfg.initial_radius • n)), s.qidx⟩
  | .ok qidx_next q =>
    let r : ℝ := compute_radius p n q
    if r < 0 then
      post_radius cfg p n s qidx_next q cfg.initial_radius
    else if r > cfg.initial_radius then
      .brk ⟨(if cfg.nan_for_initr then none else some (p - cfg.initial_radius • n)), s.qidx⟩
    else
      post_radius cfg p n s qidx_next q r

/-- The `while (1)` loop of `sb_point`, with explicit fuel (`none` = fuel
exhausted; the termination theorem shows fuel 32 always suffices). -/
noncomputable def sb_loop (cfg : MAConfig) (tree : KDTree) (p n : Vec3) :
    ℕ → SBState → Option SBResult
  | 0, _ => none
  | fuel + 1, s =>
    match sb_step cfg tree p n s with
    | .fail => some .fail
    | .brk res => some (.ok res)
    | .cont s' => sb_loop cfg tree p n fuel s'

/-- The initial loop state of `sb_point` (lines 80-84):
`r_previous = 0`, `c = p - n * initial_radius`, `qidx = -1`, `j = 0`. -/
noncomputable def sb_init (cfg : MAConfig) (p n : Vec3) : SBState :=
  ⟨0, p - cfg.initial_radius • n, -1, 0⟩

/-- `sb_point(p, n, kd_tree)`: run the shrinking-ball loop from the initial
state.  Fuel 32 is justified by the termination theorem: the loop never
executes its body more than 32 times (31 committed iterations plus the final
breaking pass), and the result is unchanged under any larger fuel. -/
noncomputable def sb_point (cfg : MAConfig) (tree : KDTree) (p n : Vec3) :
    Option SBResult :=
  sb_loop cfg tree p n 32 (sb_init cfg p n)

/-- `sb_points`: the batch driver.  For each index `i`, run `sb_point` on
`points[i]` with `normals[i]` (inward pass) or `-normals[i]` (outward pass). -/
noncomputable def sb_points (cfg : MAConfig) (points normals : List Vec3)
    (tree : KDTree) (inner : Bool) : List (Option SBResult) :=
  (List.range points.length).map fun i =>
    sb_point cfg tree (points.getD i default)
      (if inner then normals.getD i default else - normals.getD i default)

/-- Concrete point: the origin. -/
def p0 : Vec3 := ⟨0, 0, 0⟩

/-- Concrete unit normal along +z. -/
def n0 : Vec3 := ⟨0, 0, 1⟩

/-- Concrete point one unit below the origin. -/
def b0 : Vec3 := ⟨0, 0, -1⟩

/-- Concrete point one unit above the origin. -/
def a0 : Vec3 := ⟨0, 0, 1⟩

/-- Config with `initial_radius = 1`, no NaN sentinel, denoising disabled. -/
def cfgA : MAConfig := ⟨1, false, 0, 0⟩

/-- Config with `initial_radius = 10`, no NaN sentinel, denoising disabled. -/
def cfgB : MAConfig := ⟨10, false, 0, 0⟩

/-- Config with `initial_radius = 1/4`, no NaN sentinel, denoising disabled. -/
noncomputable def cfgC : MAConfig := ⟨1/4, false, 0, 0⟩

/-- A single-point index holding only `p0`; a 2-NN query honestly returns the
one existing index (`min 2 1 = 1` results). -/
def treeA : KDTree := ⟨[p0], fun _ _ => [0]⟩

/-- A two-point index over `[p0, b0]` returning both indices. -/
def treeB : KDTree := ⟨[p0, b0], fun _ _ => [0, 1]⟩

/-- A two-point index over `[a0, p0]` returning both indices
(nearest slot holds `a0`). -/
def treeC : KDTree := ⟨[a0, p0], fun _ _ => [0, 1]⟩

/-- A two-point index over `[b0, p0]` returning both indices
(nearest slot holds `b0`). -/
def treeD : KDTree := ⟨[b0, p0], fun _ _ => [0, 1]⟩

/-- The state of the run on `treeB` after its first committed iteration. -/
noncomputable def s1B : SBState := ⟨1/2, p0 - (1/2 : ℝ) • n0, 1, 1⟩

/-- A reachable state on `treeC` after one committed wrong-side iteration:
`r_previous = initial_radius = 10`. -/
noncomputable def sWrong : SBState := ⟨10, p0 - (10 : ℝ) • n0, 0, 1⟩

/-- A state with `r_previous = initial_radius`, for the self-match branch. -/
noncomputable def sSelf : SBState := ⟨10, p0 - (10 : ℝ) • n0, -1, 0⟩

@[simp] theorem Vec3.sub_def (a b : Vec3) :
    a - b = ⟨a.x - b.x, a.y - b.y, a.z - b.z⟩ := rfl

@[simp] theorem Vec3.smul_def (r : ℝ) (v : Vec3) :
    r • v = ⟨r * v.x, r * v.y, r * v.z⟩ := rfl

@[simp] theorem Vec3.neg_def (v : Vec3) : -v = ⟨-v.x, -v.y, -v.z⟩ := rfl

theorem sb_loop_zero (cfg : MAConfig) (tree : KDTree) (p n : Vec3) (s : SBState) :
    sb_loop cfg tree p n 0 s = none := rfl

theorem sb_loop_succ (cfg : MAConfig) (tree : KDTree) (p n : Vec3)
    (fuel : ℕ) (s : SBState) :
    sb_loop cfg tree p n (fuel + 1) s =
      match sb_step cfg tree p n s with
      | .fail => some .fail
      | .brk res => some (.ok res)
      | .cont s' => sb_loop cfg tree p n fuel s' := rfl

theorem sb_loop_brk {cfg : MAConfig} {tree : KDTree} {p n : Vec3}
    {s : SBState} {res : ma_result} (fuel : ℕ)
    (h : sb_step cfg tree p n s = .brk res) :
    sb_loop cfg tree p n (fuel + 1) s = some (.ok res) := by
  rw [sb_loop_succ, h]

theorem sb_loop_cont {cfg : MAConfig} {tree : KDTree} {p n : Vec3}
    {s s' : SBState} (fuel : ℕ)
    (h : sb_step cfg tree p n s = .cont s') :
    sb_loop cfg tree p n (fuel + 1) s = sb_loop cfg tree p n fuel s' := by
  rw [sb_loop_succ, h]

theorem sb_loop_fail {cfg : MAConfig} {tree : KDTree} {p n : Vec3}
    {s : SBState} (fuel : ℕ)
    (h : sb_step cfg tree p n s = .fail) :
    sb_loop cfg tree p n (fuel + 1) s = some .fail := by
  rw [sb_loop_succ, h]

/-- Case analysis for `post_denoise`: either a `break` returning the current
center and feature index, or a commit with the expected updated state
(only possible when the cap has not been reached). -/
theorem post_denoise_cases (s : SBState) (qidx_next : ℕ) (r : ℝ) (c_next : Vec3) :
    post_denoise s qidx_next r c_next = .brk ⟨some s.c, s.qidx⟩ ∨
      (post_denoise s qidx_next r c_next = .cont ⟨r, c_next, (qidx_next : ℤ), s.j + 1⟩ ∧
        s.j ≤ iteration_limit) := by
  unfold post_denoise
  split_ifs with h1 h2
  · exact Or.inl rfl
  · exact Or.inl rfl
  · exact Or.inr ⟨rfl, Nat.le_of_not_lt h2⟩

/-- Case analysis for `post_radius`: either a `break` that keeps the current
feature index and returns either the current center or the
initial-radius/NaN center, or a commit with the expected updated state. -/
theorem post_radius_cases (cfg : MAConfig) (p n : Vec3) (s : SBState)
    (qidx_next : ℕ) (q : Vec3) (r : ℝ) :
    (∃ res : ma_result, post_radius cfg p n s qidx_next q r = .brk res ∧
      res.qidx = s.qidx ∧
      (res.c = some s.c ∨
        res.c = (if cfg.nan_for_initr then none else some (p - cfg.initial_radius • n)))) ∨
    (post_radius cfg p n s qidx_next q r = .cont ⟨r, p - r • n, (qidx_next : ℤ), s.j + 1⟩ ∧
      s.j ≤ iteration_limit) := by
  obtain ⟨o, ho⟩ : ∃ o : Option Vec3,
      (if cfg.nan_for_initr then none else some (p - cfg.initial_radius • n)) = o := ⟨_, rfl⟩
  have hpr : post_radius cfg p n s qidx_next q r =
      (if cfg.denoise_preserve ≠ 0 ∨ cfg.denoise_planar ≠ 0 then
        if cfg.denoise_preserve ≠ 0 ∧
            (Real.arccos (cos_angle (p - (p - r • n)) (q - (p - r • n))) <
              cfg.denoise_preserve ∧ 0 < s.j ∧ (q - p).mag < r) then
          StepRes.brk ⟨some s.c, s.qidx⟩
        else if cfg.denoise_planar ≠ 0 ∧
            (Real.arccos (cos_angle (p - (p - r • n)) (q - (p - r • n))) <
              cfg.denoise_planar ∧ s.j = 0) then
          StepRes.brk ⟨(if cfg.nan_for_initr then none
            else some (p - cfg.initial_radius • n)), s.qidx⟩
        else post_denoise s qidx_next r (p - r • n)
      else post_denoise s qidx_next r (p - r • n)) := rfl
  rw [hpr, ho]
  split_ifs with h1 h2 h3
  · exact Or.inl ⟨⟨some s.c, s.qidx⟩, rfl, rfl, Or.inl rfl⟩
  · exact Or.inl ⟨⟨o, s.qidx⟩, rfl, rfl, Or.inr rfl⟩
  · rcases post_denoise_cases s qidx_next r (p - r • n) with h | ⟨h, hj⟩
    · rw [h]
      exact Or.inl ⟨⟨some s.c, s.qidx⟩, rfl, rfl, Or.inl rfl⟩
    · rw [h]
      exact Or.inr ⟨rfl, hj⟩
  · rcases post_denoise_cases s qidx_next r (p - r • n) with h | ⟨h, hj⟩
    · rw [h]
      exact Or.inl ⟨⟨some s.c, s.qidx⟩, rfl, rfl, Or.inl rfl⟩
    · rw [h]
      exact Or.inr ⟨rfl, hj⟩

/-- Master case analysis of the loop body: it fails only when the
nearest-neighbor part fails; every `break` keeps the current feature index
and returns either the current center or the initial-radius/NaN center;
every commit increments `j` (only below the cap), stores the accepted
neighbor index, centers the ball at `p - r•n`, and its committed radius `r`
is either `initial_radius` (wrong-side reset) or the unclamped
`compute_radius` value, in which case the two guards passed. -/
theorem sb_step_cases (cfg : MAConfig) (tree : KDTree) (p n : Vec3) (s : SBState) :
    (sb_step cfg tree p n s = .fail ∧ qstep cfg tree p s = .fail) ∨
    (∃ res : ma_result, sb_step cfg tree p n s = .brk res ∧
      res.qidx = s.qidx ∧
      (res.c = some s.c ∨
        res.c = (if cfg.nan_for_initr then none else some (p - cfg.initial_radius • n)))) ∨
    (∃ i : ℕ, ∃ q : Vec3, ∃ r : ℝ, qstep cfg tree p s = .ok i q ∧
      sb_step cfg tree p n s = .cont ⟨r, p - r • n, (i : ℤ), s.j + 1⟩ ∧
      s.j ≤ iteration_limit ∧
      (r = cfg.initial_radius ∨
        (r = compute_radius p n q ∧ ¬ r < 0 ∧ ¬ cfg.initial_radius < r))) := by
  cases hq : qstep cfg tree p s with
  | fail =>
    have hstep : sb_step cfg tree p n s = .fail := by
      unfold sb_step
      rw [hq]
    exact Or.inl ⟨hstep, rfl⟩
  | selfBreak =>
    have hstep : sb_step cfg tree p n s = .brk ⟨(if cfg.nan_for_initr then none
        else some (p - cfg.initial_radius • n)), s.qidx⟩ := by
      unfold sb_step
      rw [hq]
    exact Or.inr (Or.inl ⟨_, hstep, rfl, Or.inr rfl⟩)
  | ok i q =>
    have hstep : sb_step cfg tree p n s =
        (if compute_radius p n q < 0 then
          post_radius cfg p n s i q cfg.initial_radius
        else if compute_radius p n q > cfg.initial_radius then
          .brk ⟨(if cfg.nan_for_initr then none
            else some (p - cfg.initial_radius • n)), s.qidx⟩
        else post_radius cfg p n s i q (compute_radius p n q)) := by
      unfold sb_step
      rw [hq]
    obtain ⟨o, ho⟩ : ∃ o : Option Vec3,
        (if cfg.nan_for_initr then none else some (p - cfg.initial_radius • n)) = o := ⟨_, rfl⟩
    rw [hstep, ho]
    split_ifs with h1 h2
    · rcases post_radius_cases cfg p n s i q cfg.initial_radius with ⟨res, h, hqx, hc⟩ | ⟨h, hj⟩
      · rw [ho] at hc
        exact Or.inr (Or.inl ⟨res, h, hqx, hc⟩)
      · exact Or.inr (Or.inr ⟨i, q, cfg.initial_radius, rfl, h, hj, Or.inl rfl⟩)
    · exact Or.inr (Or.inl ⟨⟨o, s.qidx⟩, rfl, rfl, Or.inr rfl⟩)
    · rcases post_radius_cases cfg p n s i q (compute_radius p n q) with ⟨res, h, hqx, hc⟩ | ⟨h, hj⟩
      · rw [ho] at hc
        exact Or.inr (Or.inl ⟨res, h, hqx, hc⟩)
      · exact Or.inr (Or.inr ⟨i, q, compute_radius p n q, rfl, h, hj, Or.inr ⟨rfl, h1, h2⟩⟩)

/-- Under the query contract the nearest-neighbor part never goes out of
bounds. -/
theorem qstep_ne_fail {cfg : MAConfig} {tree : KDTree} {p : Vec3} {s : SBState}
    (hv : tree.Valid) : qstep cfg tree p s ≠ QStep.fail := by
  obtain ⟨hN, hq⟩ := hv
  obtain ⟨hlen, hmem, hnd⟩ := hq s.c
  obtain ⟨x, y, hxy⟩ := List.length_eq_two.mp hlen
  have hx : x < tree.the_data.length := hmem x (by rw [hxy]; simp)
  have hy : y < tree.the_data.length := hmem y (by rw [hxy]; simp)
  obtain ⟨qx, hqx⟩ : ∃ v, tree.the_data.get? x = some v :=
    ⟨_, List.get?_eq_get hx⟩
  obtain ⟨qy, hqy⟩ : ∃ v, tree.the_data.get? y = some v :=
    ⟨_, List.get?_eq_get hy⟩
  unfold qstep
  rw [hxy]
  simp only [List.get?_cons_zero, List.get?_cons_succ]
  rw [hqx, hqy]
  by_cases h1 : qx = p
  · by_cases h2 : s.r_previous = cfg.initial_radius <;> simp [h1, h2]
  · simp [h1]

/-- The loop never exhausts its fuel when at least `32 - j` fuel remains. -/
theorem sb_loop_total (cfg : MAConfig) (tree : KDTree) (p n : Vec3) :
    ∀ fuel, ∀ s : SBState, s.j ≤ 31 → 32 ≤ s.j + fuel →
      ∃ out, sb_loop cfg tree p n fuel s = some out := by
  intro fuel
  induction fuel with
  | zero => intro s hj h32; omega
  | succ f ih =>
    intro s hj h32
    rcases sb_step_cases cfg tree p n s with ⟨hstep, _⟩ | ⟨res, hstep, _⟩ |
      ⟨i, q, r, _, hstep, hjle, _⟩
    · exact ⟨.fail, sb_loop_fail f hstep⟩
    · exact ⟨.ok res, sb_loop_brk f hstep⟩
    · rw [sb_loop_cont f hstep]
      have h30 : iteration_limit = 30 := rfl
      rw [h30] at hjle
      refine ih _ ?_ ?_
      · show s.j + 1 ≤ 31
        omega
      · show 32 ≤ s.j + 1 + f
        omega

/-- The loop result is stable under adding fuel. -/
theorem sb_loop_mono (cfg : MAConfig) (tree : KDTree) (p n : Vec3) :
    ∀ fuel, ∀ s : SBState, ∀ out, sb_loop cfg tree p n fuel s = some out →
      ∀ fuel', fuel ≤ fuel' → sb_loop cfg tree p n fuel' s = some out := by
  intro fuel
  induction fuel with
  | zero => intro s out h; rw [sb_loop_zero] at h; exact absurd h (by simp)
  | succ f ih =>
    intro s out h fuel' hle
    obtain ⟨f', rfl⟩ : ∃ f'', fuel' = f'' + 1 := ⟨fuel' - 1, by omega⟩
    cases hstep : sb_step cfg tree p n s with
    | fail =>
      rw [sb_loop_fail f hstep] at h
      rw [sb_loop_fail f' hstep]
      exact h
    | brk res =>
      rw [sb_loop_brk f hstep] at h
      rw [sb_loop_brk f' hstep]
      exact h
    | cont s' =>
      rw [sb_loop_cont f hstep] at h
      rw [sb_loop_cont f' hstep]
      exact ih s' out h f' (by omega)

/-- Under the query contract the loop never produces the out-of-bounds
outcome. -/
theorem sb_loop_no_fail {cfg : MAConfig} {tree : KDTree} {p n : Vec3}
    (hv : tree.Valid) :
    ∀ fuel, ∀ s : SBState, ∀ out, sb_loop cfg tree p n fuel s = some out →
      ∃ res : ma_result, out = .ok res := by
  intro fuel
  induction fuel with
  | zero => intro s out h; rw [sb_loop_zero] at h; exact absurd h (by simp)
  | succ f ih =>
    intro s out h
    rcases sb_step_cases cfg tree p n s with ⟨hstep, hqf⟩ | ⟨res, hstep, _⟩ |
      ⟨i, q, r, _, hstep, _, _⟩
    · exact absurd hqf (qstep_ne_fail hv)
    · rw [sb_loop_brk f hstep] at h
      exact ⟨res, by injection h with h'; exact h'.symm⟩
    · rw [sb_loop_cont f hstep] at h
      exact ih _ out h

/-- The two-point index `treeB` satisfies the query contract. -/
theorem treeB_valid : treeB.Valid := by
  refine ⟨by simp [treeB], fun c => ⟨rfl, ?_, ?_⟩⟩
  · intro i hi
    simp only [treeB, List.mem_cons, List.mem_singleton, List.not_mem_nil,
      or_false] at hi
    rcases hi with h | h <;> simp [treeB, h]
  · simp [treeB]

/-- Claim C2: for every input (point, normal, contract-satisfying index,
config) the solver terminates: the loop, run with any fuel of at least 32,
returns one and the same proper result (a center that is either a finite
point or the NaN sentinel, plus a feature index) — so `while (1)` stops
within 32 passes of its body; moreover each committed iteration increments
`j` by exactly one and commits are only possible while `j ≤ 30`, so at most
31 iterations (the cap of 30 plus one) ever commit. -/
theorem sb_point_terminates (cfg : MAConfig) (tree : KDTree) (p n : Vec3)
    (hv : tree.Valid) :
    (∃ res : ma_result, sb_point cfg tree p n = some (.ok res) ∧
      ∀ fuel, 32 ≤ fuel →
        sb_loop cfg tree p n fuel (sb_init cfg p n) = some (.ok res)) ∧
    (∀ s s' : SBState, sb_step cfg tree p n s = .cont s' →
      s'.j = s.j + 1 ∧ s.j ≤ iteration_limit) := by
  constructor
  · obtain ⟨out, hout⟩ :=
      sb_loop_total cfg tree p n 32 (sb_init cfg p n) (by simp [sb_init]) (by simp [sb_init])
    obtain ⟨res, rfl⟩ := sb_loop_no_fail hv 32 (sb_init cfg p n) out hout
    exact ⟨res, hout, fun fuel hf =>
      sb_loop_mono cfg tree p n 32 (sb_init cfg p n) _ hout fuel hf⟩
  · intro s s' hc
    rcases sb_step_cases cfg tree p n s with ⟨hstep, _⟩ | ⟨res, hstep, _⟩ |
      ⟨i, q, r, _, hstep, hjle, _⟩
    · rw [hstep] at hc
      exact absurd hc (by simp)
    · rw [hstep] at hc
      exact absurd hc (by simp)
    · rw [hstep] at hc
      injection hc with h'
      subst h'
      exact ⟨rfl, hjle⟩

/-- Witness for C2 at a concrete input: the two-point index `treeB`
satisfies the contract, and the solver on `p0`, `n0` terminates with a
proper result stable under any fuel of at least 32. -/
theorem sb_point_terminates_wit :
    treeB.Valid ∧
    ((∃ res : ma_result, sb_point cfgB treeB p0 n0 = some (.ok res) ∧
      ∀ fuel, 32 ≤ fuel →
        sb_loop cfgB treeB p0 n0 fuel (sb_init cfgB p0 n0) = some (.ok res)) ∧
    (∀ s s' : SBState, sb_step cfgB treeB p0 n0 s = .cont s' →
      s'.j = s.j + 1 ∧ s.j ≤ iteration_limit)) :=
  ⟨treeB_valid, sb_point_terminates cfgB treeB p0 n0 treeB_valid⟩

/-- A committed neighbor is an in-range data point distinct from `p`:
the non-fallback branch checked `q != p` explicitly, and in the
second-nearest fallback the two returned indices are distinct and the data
has no duplicates. -/
theorem qstep_ok_spec {cfg : MAConfig} {tree : KDTree} {p : Vec3} {s : SBState}
    {i : ℕ} {q : Vec3} (hv : tree.Valid) (hnd : tree.the_data.Nodup)
    (h : qstep cfg tree p s = QStep.ok i q) :
    tree.the_data.get? i = some q ∧ q ≠ p ∧ i < tree.the_data.length := by
  obtain ⟨hN, hq⟩ := hv
  obtain ⟨hlen, hmem, hndq⟩ := hq s.c
  obtain ⟨x, y, hxy⟩ := List.length_eq_two.mp hlen
  have hx : x < tree.the_data.length := hmem x (by rw [hxy]; simp)
  have hy : y < tree.the_data.length := hmem y (by rw [hxy]; simp)
  have hxney : x ≠ y := by
    rw [hxy] at hndq
    simp at hndq
    exact hndq
  obtain ⟨qx, hqx⟩ : ∃ v, tree.the_data.get? x = some v :=
    ⟨_, List.get?_eq_get hx⟩
  obtain ⟨qy, hqy⟩ : ∃ v, tree.the_data.get? y = some v :=
    ⟨_, List.get?_eq_get hy⟩
  unfold qstep at h
  rw [hxy] at h
  simp only [List.get?_cons_zero, List.get?_cons_succ] at h
  rw [hqx, hqy] at h
  dsimp only [] at h
  by_cases h1 : qx = p
  · rw [if_pos h1] at h
    by_cases h2 : s.r_previous = cfg.initial_radius
    · rw [if_pos h2] at h
      exact absurd h (by simp)
    · rw [if_neg h2] at h
      injection h with hi hqv
      subst hi
      subst hqv
      refine ⟨hqy, ?_, hy⟩
      intro hqp
      apply hxney
      apply (List.get?_inj hy hnd ?_).symm
      rw [hqx, hqy, h1, hqp]
  · rw [if_neg h1] at h
    injection h with hi hqv
    subst hi
    subst hqv
    exact ⟨hqx, h1, hx⟩

theorem Vec3.dot_self_nonneg (v : Vec3) : 0 ≤ v.dot v := by
  unfold Vec3.dot
  nlinarith [mul_self_nonneg v.x, mul_self_nonneg v.y, mul_self_nonneg v.z]

theorem Vec3.sub_eq_zero_iff {a b : Vec3} :
    a - b = (⟨0, 0, 0⟩ : Vec3) ↔ a = b := by
  cases a
  cases b
  simp [Vec3.mk.injEq, sub_eq_zero]

theorem Vec3.dot_self_pos {v : Vec3} (h : v ≠ (⟨0, 0, 0⟩ : Vec3)) :
    0 < v.dot v := by
  rcases lt_or_eq_of_le (Vec3.dot_self_nonneg v) with hlt | heq
  · exact hlt
  · exfalso
    apply h
    obtain ⟨vx, vy, vz⟩ := v
    unfold Vec3.dot at heq
    simp only at heq
    have hx : vx = 0 := by nlinarith [sq_nonneg vx, sq_nonneg vy, sq_nonneg vz]
    have hy : vy = 0 := by nlinarith [sq_nonneg vx, sq_nonneg vy, sq_nonneg vz]
    have hz : vz = 0 := by nlinarith [sq_nonneg vx, sq_nonneg vy, sq_nonneg vz]
    simp [hx, hy, hz]

/-- The distance factor `d` in `compute_radius` is positive when `q ≠ p`. -/
theorem mag_sub_pos {p q : Vec3} (hqp : q ≠ p) : 0 < (p - q).mag := by
  apply Real.sqrt_pos.mpr
  apply Vec3.dot_self_pos
  intro h
  exact hqp (Vec3.sub_eq_zero_iff.mp h).symm

/-- In exact arithmetic the radius formula cannot return 0 for a point `q`
distinct from `p` and off the tangent plane of `p`. -/
theorem compute_radius_ne_zero {p n q : Vec3} (hqp : q ≠ p)
    (hdot : n.dot (p - q) ≠ 0) : compute_radius p n q ≠ 0 := by
  show (p - q).mag / (2 * (n.dot (p - q) / (p - q).mag)) ≠ 0
  have hd : 0 < (p - q).mag := mag_sub_pos hqp
  exact div_ne_zero (ne_of_gt hd)
    (mul_ne_zero two_ne_zero (div_ne_zero hdot (ne_of_gt hd)))

/-- Generic invariant principle for the shrinking-ball loop. -/
theorem sb_loop_invariant {cfg : MAConfig} {tree : KDTree} {p n : Vec3}
    {P : SBState → Prop} {Q : ma_result → Prop}
    (hcont : ∀ s s', P s → sb_step cfg tree p n s = .cont s' → P s')
    (hbrk : ∀ s res, P s → sb_step cfg tree p n s = .brk res → Q res) :
    ∀ fuel, ∀ s : SBState, P s → ∀ res : ma_result,
      sb_loop cfg tree p n fuel s = some (.ok res) → Q res := by
  intro fuel
  induction fuel with
  | zero =>
    intro s _ res h
    rw [sb_loop_zero] at h
    exact absurd h (by simp)
  | succ f ih =>
    intro s hP res h
    cases hstep : sb_step cfg tree p n s with
    | fail =>
      rw [sb_loop_fail f hstep] at h
      simp at h
    | brk res' =>
      rw [sb_loop_brk f hstep] at h
      have hres : res' = res := by
        have h' : SBResult.ok res' = SBResult.ok res := by injection h
        injection h'
      subst hres
      exact hbrk s res' hP hstep
    | cont s' =>
      rw [sb_loop_cont f hstep] at h
      exact ih s' (hcont s s' hP hstep) res h

/-- Claim C3: whenever the solver returns a finite (non-NaN) center, that
center is `p - r•n` for a radius `r` with `0 < r ≤ initial_radius`.
Hypotheses: the index satisfies the query contract, the data has no
duplicate points, `initial_radius` is positive, and no data point other
than `p` lies exactly on the tangent plane of `p` (in C++ that degenerate
case produces an IEEE infinity which the ceiling guard absorbs; exact real
arithmetic cannot represent it, so it is excluded by hypothesis). -/
theorem sb_point_radius_in_range (cfg : MAConfig) (tree : KDTree) (p n : Vec3)
    (res : ma_result) (c : Vec3)
    (hv : tree.Valid) (hnd : tree.the_data.Nodup)
    (hR : 0 < cfg.initial_radius)
    (hgen : ∀ q ∈ tree.the_data, q ≠ p → n.dot (p - q) ≠ 0)
    (hrun : sb_point cfg tree p n = some (.ok res))
    (hc : res.c = some c) :
    ∃ r : ℝ, 0 < r ∧ r ≤ cfg.initial_radius ∧ c = p - r • n := by
  have hrun' : sb_loop cfg tree p n 32 (sb_init cfg p n) = some (.ok res) := hrun
  refine sb_loop_invariant
    (P := fun s => ∃ r : ℝ, 0 < r ∧ r ≤ cfg.initial_radius ∧ s.c = p - r • n)
    (Q := fun res => ∀ c : Vec3, res.c = some c →
      ∃ r : ℝ, 0 < r ∧ r ≤ cfg.initial_radius ∧ c = p - r • n)
    ?_ ?_ 32 (sb_init cfg p n) ⟨cfg.initial_radius, hR, le_refl _, rfl⟩ res hrun' c hc
  · intro s s' hP hstep
    rcases sb_step_cases cfg tree p n s with ⟨hstep', _⟩ | ⟨res', hstep', _⟩ |
      ⟨i, q, r, hq, hstep', hj, hr⟩
    · rw [hstep'] at hstep
      exact absurd hstep (by simp)
    · rw [hstep'] at hstep
      exact absurd hstep (by simp)
    · rw [hstep'] at hstep
      injection hstep with h'
      subst h'
      refine ⟨r, ?_, ?_, rfl⟩
      · rcases hr with hr | ⟨hr, hneg, hceil⟩
        · rw [hr]; exact hR
        · obtain ⟨hget, hqp, hlt⟩ := qstep_ok_spec hv hnd hq
          have hmem : q ∈ tree.the_data := List.get?_mem hget
          have hne : r ≠ 0 := by
            rw [hr]
            exact compute_radius_ne_zero hqp (hgen q hmem hqp)
          exact lt_of_le_of_ne (not_lt.mp hneg) (Ne.symm hne)
      · rcases hr with hr | ⟨hr, hneg, hceil⟩
        · rw [hr]
        · exact not_lt.mp hceil
  · intro s res' hP hstep c' hc'
    rcases sb_step_cases cfg tree p n s with ⟨hstep', _⟩ | ⟨res'', hstep', _, hcopt⟩ |
      ⟨i, q, r, hq, hstep', hj, hr⟩
    · rw [hstep'] at hstep
      exact absurd hstep (by simp)
    · rw [hstep'] at hstep
      have hres : res'' = res' := by injection hstep
      subst hres
      rcases hcopt with hcp | hcp
      · rw [hcp] at hc'
        obtain ⟨r0, hr0, hrR, hsc⟩ := hP
        have hcs : s.c = c' := by injection hc'
        exact ⟨r0, hr0, hrR, by rw [← hcs]; exact hsc⟩
      · cases hnan : cfg.nan_for_initr with
        | true =>
          rw [hnan] at hcp
          simp at hcp
          rw [hcp] at hc'
          exact absurd hc' (by simp)
        | false =>
          rw [hnan] at hcp
          simp at hcp
          rw [hcp] at hc'
          have hcs : p - cfg.initial_radius • n = c' := by injection hc'
          exact ⟨cfg.initial_radius, hR, le_refl _, hcs.symm⟩
    · rw [hstep'] at hstep
      exact absurd hstep (by simp)

/-- Claim C6: the feature index starts at -1, every `break` path (self-match
finalize, ceiling guard, both denoising stops, convergence, iteration cap)
returns the feature index unchanged, and only a committing fall-through
updates it — to the index of the neighbor accepted in that iteration.
Hence the emitted feature index is the one committed at the last completed
iteration (or -1 if none ever committed), possibly stale relative to the
returned center. -/
theorem sb_qidx_only_on_commit (cfg : MAConfig) (tree : KDTree) (p n : Vec3) :
    (sb_init cfg p n).qidx = -1 ∧
    (∀ s : SBState, ∀ res : ma_result,
      sb_step cfg tree p n s = .brk res → res.qidx = s.qidx) ∧
    (∀ s s' : SBState, sb_step cfg tree p n s = .cont s' →
      ∃ i : ℕ, ∃ q : Vec3, qstep cfg tree p s = .ok i q ∧ s'.qidx = (i : ℤ)) := by
  refine ⟨rfl, ?_, ?_⟩
  · intro s res hstep
    rcases sb_step_cases cfg tree p n s with ⟨hstep', _⟩ | ⟨res', hstep', hqx, _⟩ |
      ⟨i, q, r, _, hstep', _, _⟩
    · rw [hstep'] at hstep
      exact absurd hstep (by simp)
    · rw [hstep'] at hstep
      have hres : res' = res := by injection hstep
      subst hres
      exact hqx
    · rw [hstep'] at hstep
      exact absurd hstep (by simp)
  · intro s s' hstep
    rcases sb_step_cases cfg tree p n s with ⟨hstep', _⟩ | ⟨res', hstep', _, _⟩ |
      ⟨i, q, r, hq, hstep', _, _⟩
    · rw [hstep'] at hstep
      exact absurd hstep (by simp)
    · rw [hstep'] at hstep
      exact absurd hstep (by simp)
    · rw [hstep'] at hstep
      injection hstep with h'
      subst h'
      exact ⟨i, q, hq, rfl⟩

/-- Run-level feature-index invariant: a non-(-1) emitted feature index is
the in-range index of a data point distinct from `p`, hence distinct from
any index holding `p`. -/
theorem sb_point_qidx_spec (cfg : MAConfig) (tree : KDTree) (p n : Vec3)
    (pIdx : ℕ) (res : ma_result)
    (hv : tree.Valid) (hnd : tree.the_data.Nodup)
    (hpidx : tree.the_data.get? pIdx = some p)
    (hrun : sb_point cfg tree p n = some (.ok res))
    (hq : res.qidx ≠ -1) :
    ∃ k : ℕ, res.qidx = (k : ℤ) ∧ k < tree.the_data.length ∧ k ≠ pIdx := by
  have hrun' : sb_loop cfg tree p n 32 (sb_init cfg p n) = some (.ok res) := hrun
  have main := sb_loop_invariant
    (P := fun s => s.qidx = -1 ∨ ∃ k : ℕ, s.qidx = (k : ℤ) ∧
      k < tree.the_data.length ∧
      ∀ qq : Vec3, tree.the_data.get? k = some qq → qq ≠ p)
    (Q := fun res => res.qidx = -1 ∨ ∃ k : ℕ, res.qidx = (k : ℤ) ∧
      k < tree.the_data.length ∧
      ∀ qq : Vec3, tree.the_data.get? k = some qq → qq ≠ p)
    ?_ ?_ 32 (sb_init cfg p n) (Or.inl rfl) res hrun'
  · rcases main with hm | ⟨k, hk, hklen, hkq⟩
    · exact absurd hm hq
    · refine ⟨k, hk, hklen, ?_⟩
      intro hkp
      subst hkp
      exact hkq p hpidx rfl
  · intro s s' hP hstep
    rcases sb_step_cases cfg tree p n s with ⟨hstep', _⟩ | ⟨res', hstep', _, _⟩ |
      ⟨i, q, r, hqs, hstep', _, _⟩
    · rw [hstep'] at hstep
      exact absurd hstep (by simp)
    · rw [hstep'] at hstep
      exact absurd hstep (by simp)
    · rw [hstep'] at hstep
      injection hstep with h'
      subst h'
      obtain ⟨hget, hqp, hlt⟩ := qstep_ok_spec hv hnd hqs
      refine Or.inr ⟨i, rfl, hlt, ?_⟩
      intro qq hqq
      rw [hget] at hqq
      have : q = qq := by injection hqq
      rw [← this]
      exact hqp
  · intro s res' hP hstep
    rcases sb_step_cases cfg tree p n s with ⟨hstep', _⟩ | ⟨res'', hstep', hqx, _⟩ |
      ⟨i, q, r, _, hstep', _, _⟩
    · rw [hstep'] at hstep
      exact absurd hstep (by simp)
    · rw [hstep'] at hstep
      have hres : res'' = res' := by injection hstep
      subst hres
      rw [hqx]
      exact hP
    · rw [hstep'] at hstep
      exact absurd hstep (by simp)

/-- Claim C7: any feature index other than -1 persisted by the batch driver
at slot `i` is a valid index into the point set and differs from `i`
(the input point's own index), provided the index is built over exactly the
input points (as the orchestration does), the contract holds, and the
points are pairwise distinct. -/
theorem sb_points_qidx_valid_distinct (cfg : MAConfig)
    (points normals : List Vec3) (tree : KDTree) (inner : Bool)
    (i : ℕ) (res : ma_result)
    (hdata : tree.the_data = points) (hv : tree.Valid) (hnd : points.Nodup)
    (hrun : (sb_points cfg points normals tree inner).get? i =
      some (some (.ok res)))
    (hq : res.qidx ≠ -1) :
    0 ≤ res.qidx ∧ res.qidx < (points.length : ℤ) ∧ res.qidx ≠ (i : ℤ) := by
  have hi : i < points.length := by
    have hlen : (sb_points cfg points normals tree inner).length = points.length := by
      simp [sb_points]
    have h := List.get?_eq_some.mp hrun
    obtain ⟨hbound, _⟩ := h
    rw [hlen] at hbound
    exact hbound
  have hentry : (sb_points cfg points normals tree inner).get? i =
      some (sb_point cfg tree (points.getD i default)
        (if inner then normals.getD i default else - normals.getD i default)) := by
    show ((List.range points.length).map _).get? i = _
    rw [List.get?_map, List.get?_range hi]
    rfl
  rw [hentry] at hrun
  have hrun' : sb_point cfg tree (points.getD i default)
      (if inner then normals.getD i default else - normals.getD i default) =
      some (.ok res) := by
    injection hrun
  have hpidx : tree.the_data.get? i = some (points.getD i default) := by
    rw [hdata]
    have h1 : points.get? i = some (points.get ⟨i, hi⟩) := List.get?_eq_get hi
    have h2 : points.getD i default = points.get ⟨i, hi⟩ := by
      rw [List.getD_eq_get?, h1]
      rfl
    rw [h1, h2]
  have hnd' : tree.the_data.Nodup := by
    rw [hdata]
    exact hnd
  obtain ⟨k, hk, hklen, hkne⟩ := sb_point_qidx_spec cfg tree
    (points.getD i default)
    (if inner then normals.getD i default else - normals.getD i default)
    i res hv hnd' hpidx hrun' hq
  rw [hdata] at hklen
  refine ⟨by rw [hk]; exact_mod_cast Int.ofNat_nonneg k, ?_, ?_⟩
  · rw [hk]
    exact_mod_cast hklen
  · rw [hk]
    intro hcontra
    apply hkne
    exact_mod_cast hcontra

theorem cr_b0 : compute_radius p0 n0 b0 = 1 / 2 := by
  unfold compute_radius Vec3.mag Vec3.dot
  norm_num [p0, n0, b0, Real.sqrt_one]

theorem cr_a0 : compute_radius p0 n0 a0 = -(1 / 2) := by
  unfold compute_radius Vec3.mag Vec3.dot
  norm_num [p0, n0, a0, Real.sqrt_one]

theorem qstep_sInitB : qstep cfgB treeB p0 (sb_init cfgB p0 n0) = .ok 1 b0 := by
  unfold qstep treeB cfgB sb_init
  norm_num [p0, n0, b0]

theorem qstep_s1B : qstep cfgB treeB p0 s1B = .ok 1 b0 := by
  unfold qstep treeB cfgB s1B
  norm_num [p0, n0, b0]

theorem step_sInitB :
    sb_step cfgB treeB p0 n0 (sb_init cfgB p0 n0) = .cont s1B := by
  unfold sb_step
  rw [qstep_sInitB]
  simp only [cr_b0]
  rw [if_neg (by norm_num), if_neg (by norm_num [cfgB])]
  unfold post_radius
  rw [if_neg (by norm_num [cfgB])]
  unfold post_denoise
  rw [if_neg (by norm_num [sb_init, delta_convergance, abs_of_nonneg]),
    if_neg (by norm_num [sb_init, iteration_limit])]
  unfold s1B sb_init
  norm_num

theorem step_s1B :
    sb_step cfgB treeB p0 n0 s1B = .brk ⟨some (p0 - (1/2 : ℝ) • n0), 1⟩ := by
  unfold sb_step
  rw [qstep_s1B]
  simp only [cr_b0]
  rw [if_neg (by norm_num), if_neg (by norm_num [cfgB])]
  unfold post_radius
  rw [if_neg (by norm_num [cfgB])]
  unfold post_denoise
  rw [if_pos (by norm_num [s1B, delta_convergance])]
  unfold s1B
  norm_num

/-- The full run on the two-point configuration `treeB`: the solver commits
one iteration (radius 1/2, feature index 1) and then stops by convergence,
returning the committed center. -/
theorem runB : sb_point cfgB treeB p0 n0 =
    some (.ok ⟨some (p0 - (1/2 : ℝ) • n0), 1⟩) := by
  show sb_loop cfgB treeB p0 n0 (31 + 1) (sb_init cfgB p0 n0) = _
  rw [sb_loop_cont 31 step_sInitB]
  show sb_loop cfgB treeB p0 n0 (30 + 1) s1B = _
  rw [sb_loop_brk 30 step_s1B]

theorem qstep_sWrong : qstep cfgB treeC p0 sWrong = .ok 0 a0 := by
  unfold qstep treeC cfgB sWrong
  norm_num [p0, n0, a0]

theorem step_sWrong :
    sb_step cfgB treeC p0 n0 sWrong = .brk ⟨some (p0 - (10 : ℝ) • n0), 0⟩ := by
  unfold sb_step
  rw [qstep_sWrong]
  simp only [cr_a0]
  rw [if_pos (by norm_num)]
  unfold post_radius
  rw [if_neg (by norm_num [cfgB])]
  unfold post_denoise
  rw [if_pos (by norm_num [sWrong, cfgB, delta_convergance])]
  unfold sWrong
  norm_num

theorem qstepA : qstep cfgA treeA p0 (sb_init cfgA p0 n0) = .fail := by
  unfold qstep treeA cfgA sb_init
  norm_num [p0, n0]

/-- The single-point run: the first loop pass reads the (absent) second
entry of the one-element query result. -/
theorem runA : sb_point cfgA treeA p0 n0 = some .fail := by
  show sb_loop cfgA treeA p0 n0 (31 + 1) (sb_init cfgA p0 n0) = _
  rw [sb_loop_fail 31 (by unfold sb_step; rw [qstepA])]

/-- Claim C1 (amended): whenever the nearest neighbor returned for the
current center is the input point `p` itself and `r_previous` equals
`initial_radius`, the solver finalizes immediately with radius
`initial_radius`: center `p - n*initial_radius` (or the NaN sentinel when
configured) and the feature index unchanged, without reading the second
neighbor.  On a single-point input set, however, this branch is not taken
at the first iteration, because `r_previous` starts at 0, not
`initial_radius`; the solver instead reads the second-neighbor slot of the
one-element query result (out of bounds — see the counterexample). -/
theorem sb_step_self_match_finalize (cfg : MAConfig) (tree : KDTree)
    (p n : Vec3) (s : SBState) (i0 : ℕ)
    (h0 : (tree.query s.c 2).get? 0 = some i0)
    (h1 : tree.the_data.get? i0 = some p)
    (h2 : s.r_previous = cfg.initial_radius) :
    sb_step cfg tree p n s = .brk ⟨(if cfg.nan_for_initr then none
      else some (p - cfg.initial_radius • n)), s.qidx⟩ := by
  have hq : qstep cfg tree p s = .selfBreak := by
    unfold qstep
    rw [h0]
    dsimp only []
    rw [h1]
    dsimp only []
    rw [if_pos rfl, if_pos h2]
  unfold sb_step
  rw [hq]

/-- Witness for C1 (amended) at a concrete input: a two-point index whose
nearest slot holds `p0`, in a state with `r_previous = initial_radius`. -/
theorem sb_step_self_match_finalize_wit :
    ((treeB.query sSelf.c 2).get? 0 = some 0 ∧
      treeB.the_data.get? 0 = some p0 ∧
      sSelf.r_previous = cfgB.initial_radius) ∧
    sb_step cfgB treeB p0 n0 sSelf = .brk ⟨(if cfgB.nan_for_initr then none
      else some (p0 - cfgB.initial_radius • n0)), sSelf.qidx⟩ :=
  ⟨⟨rfl, rfl, rfl⟩,
    sb_step_self_match_finalize cfgB treeB p0 n0 sSelf 0 rfl rfl rfl⟩

/-- Counterexample for C1 as stated: on a single-point input set (index
over `[p0]` only, honest one-element 2-NN result), the solver does not
return the initial-radius fallback `⟨p0 - initial_radius•n0, -1⟩`: at the
first iteration `r_previous = 0 ≠ initial_radius`, so it takes the
second-neighbor fallback and reads past the end of the query result. -/
theorem sb_point_single_point_reads_second :
    sb_point cfgA treeA p0 n0 = some .fail ∧
    sb_point cfgA treeA p0 n0 ≠ some (.ok ⟨some (p0 - (1 : ℝ) • n0), -1⟩) := by
  refine ⟨runA, ?_⟩
  rw [runA]
  simp

/-- Claim C4 (amended): whenever the candidate radius is negative, the
wrong-side branch resets `r` to `initial_radius` and itself never breaks:
the body then either commits (continuing to the next iteration with
`r_previous = initial_radius`) or breaks at one of the later checks
(denoising, convergence, iteration cap) in the same pass, always leaving
the feature index unchanged.  The original claim that the body always
"continues to the next iteration without breaking" is refuted by the
counterexample, where the convergence test fires in the same pass. -/
theorem sb_step_wrong_side_reset (cfg : MAConfig) (tree : KDTree)
    (p n : Vec3) (s : SBState) (i : ℕ) (q : Vec3)
    (hq : qstep cfg tree p s = .ok i q)
    (hneg : compute_radius p n q < 0) :
    sb_step cfg tree p n s =
      .cont ⟨cfg.initial_radius, p - cfg.initial_radius • n, (i : ℤ), s.j + 1⟩ ∨
    ∃ res : ma_result, sb_step cfg tree p n s = .brk res ∧ res.qidx = s.qidx := by
  have hstep : sb_step cfg tree p n s = post_radius cfg p n s i q cfg.initial_radius := by
    unfold sb_step
    rw [hq]
    dsimp only []
    rw [if_pos hneg]
  rw [hstep]
  rcases post_radius_cases cfg p n s i q cfg.initial_radius with ⟨res, h, hqx, _⟩ | ⟨h, _⟩
  · exact Or.inr ⟨res, h, hqx⟩
  · exact Or.inl h

/-- Witness for C4 (amended) at a concrete input. -/
theorem sb_step_wrong_side_reset_wit :
    (qstep cfgB treeC p0 sWrong = .ok 0 a0 ∧ compute_radius p0 n0 a0 < 0) ∧
    (sb_step cfgB treeC p0 n0 sWrong =
        .cont ⟨cfgB.initial_radius, p0 - cfgB.initial_radius • n0, ((0 : ℕ) : ℤ),
          sWrong.j + 1⟩ ∨
      ∃ res : ma_result, sb_step cfgB treeC p0 n0 sWrong = .brk res ∧
        res.qidx = sWrong.qidx) :=
  ⟨⟨qstep_sWrong, by rw [cr_a0]; norm_num⟩,
    sb_step_wrong_side_reset cfgB treeC p0 n0 sWrong 0 a0 qstep_sWrong
      (by rw [cr_a0]; norm_num)⟩

/-- Counterexample for C4 as stated: a reachable state on `treeC` (one
committed wrong-side iteration, so `r_previous = initial_radius = 10`)
where the candidate radius is again negative, yet the loop body breaks
(the convergence test fires on the reset radius) instead of continuing to
the next iteration. -/
theorem sb_step_wrong_side_can_break :
    qstep cfgB treeC p0 sWrong = .ok 0 a0 ∧
    compute_radius p0 n0 a0 < 0 ∧
    sb_step cfgB treeC p0 n0 sWrong = .brk ⟨some (p0 - (10 : ℝ) • n0), 0⟩ :=
  ⟨qstep_sWrong, by rw [cr_a0]; norm_num, step_sWrong⟩

/-- Claim C5: whenever the candidate radius exceeds the (nonnegative)
`initial_radius` — including the huge radii produced by a near-zero cosine
in the radius formula — the ceiling guard clamps the radius to
`initial_radius` and stops immediately, returning `p - n*initial_radius`
(or the NaN sentinel when configured) with the feature index unchanged.
No separate near-zero-cosine check exists in the body: this guard is the
only protection. -/
theorem sb_step_ceiling_clamp_stop (cfg : MAConfig) (tree : KDTree)
    (p n : Vec3) (s : SBState) (i : ℕ) (q : Vec3)
    (hq : qstep cfg tree p s = .ok i q)
    (hR : 0 ≤ cfg.initial_radius)
    (hgt : cfg.initial_radius < compute_radius p n q) :
    sb_step cfg tree p n s = .brk ⟨(if cfg.nan_for_initr then none
      else some (p - cfg.initial_radius • n)), s.qidx⟩ := by
  unfold sb_step
  rw [hq]
  dsimp only []
  rw [if_neg (not_lt.mpr (le_trans hR (le_of_lt hgt))), if_pos hgt]

theorem qstep_sD : qstep cfgC treeD p0 (sb_init cfgC p0 n0) = .ok 0 b0 := by
  unfold qstep treeD cfgC sb_init
  norm_num [p0, n0, b0]

/-- Witness for C5 at a concrete input: radius 1/2 against ceiling 1/4. -/
theorem sb_step_ceiling_clamp_stop_wit :
    (qstep cfgC treeD p0 (sb_init cfgC p0 n0) = .ok 0 b0 ∧
      (0 : ℝ) ≤ cfgC.initial_radius ∧
      cfgC.initial_radius < compute_radius p0 n0 b0) ∧
    sb_step cfgC treeD p0 n0 (sb_init cfgC p0 n0) =
      .brk ⟨(if cfgC.nan_for_initr then none
        else some (p0 - cfgC.initial_radius • n0)), (sb_init cfgC p0 n0).qidx⟩ :=
  ⟨⟨qstep_sD, by norm_num [cfgC], by rw [cr_b0]; norm_num [cfgC]⟩,
    sb_step_ceiling_clamp_stop cfgC treeD p0 n0 (sb_init cfgC p0 n0) 0 b0
      qstep_sD (by norm_num [cfgC]) (by rw [cr_b0]; norm_num [cfgC])⟩

theorem treeB_data_nodup : treeB.the_data.Nodup := by
  norm_num [treeB, p0, b0, Vec3.mk.injEq]

theorem treeB_nondegenerate : ∀ q ∈ treeB.the_data, q ≠ p0 → n0.dot (p0 - q) ≠ 0 := by
  intro q hq hqp
  simp only [treeB, List.mem_cons, List.mem_singleton, List.not_mem_nil,
    or_false] at hq
  rcases hq with h | h
  · exact absurd h hqp
  · subst h
    unfold Vec3.dot
    norm_num [p0, n0, b0]

/-- Witness for C3 at the concrete two-point run: the returned center
`p0 - (1/2)•n0` is `p0 - r•n0` for `r = 1/2 ∈ (0, 10]`. -/
theorem sb_point_radius_in_range_wit :
    (treeB.Valid ∧ treeB.the_data.Nodup ∧ (0 : ℝ) < cfgB.initial_radius ∧
      (∀ q ∈ treeB.the_data, q ≠ p0 → n0.dot (p0 - q) ≠ 0) ∧
      sb_point cfgB treeB p0 n0 =
        some (.ok ⟨some (p0 - (1/2 : ℝ) • n0), 1⟩) ∧
      (⟨some (p0 - (1/2 : ℝ) • n0), 1⟩ : ma_result).c =
        some (p0 - (1/2 : ℝ) • n0)) ∧
    ∃ r : ℝ, 0 < r ∧ r ≤ cfgB.initial_radius ∧
      p0 - (1/2 : ℝ) • n0 = p0 - r • n0 :=
  ⟨⟨treeB_valid, treeB_data_nodup, by norm_num [cfgB], treeB_nondegenerate,
      runB, rfl⟩,
    sb_point_radius_in_range cfgB treeB p0 n0
      ⟨some (p0 - (1/2 : ℝ) • n0), 1⟩ (p0 - (1/2 : ℝ) • n0)
      treeB_valid treeB_data_nodup (by norm_num [cfgB]) treeB_nondegenerate
      runB rfl⟩

/-- Witness for C6 at a concrete break: the convergence stop on `treeB`
returns the feature index of the state unchanged. -/
theorem sb_qidx_only_on_commit_wit :
    sb_step cfgB treeB p0 n0 s1B = .brk ⟨some (p0 - (1/2 : ℝ) • n0), 1⟩ ∧
    (⟨some (p0 - (1/2 : ℝ) • n0), 1⟩ : ma_result).qidx = s1B.qidx :=
  ⟨step_s1B, (sb_qidx_only_on_commit cfgB treeB p0 n0).2.1 s1B
    ⟨some (p0 - (1/2 : ℝ) • n0), 1⟩ step_s1B⟩

/-- The batch driver on the concrete two-point input, slot 0. -/
theorem sb_points_entry0 :
    (sb_points cfgB [p0, b0] [n0, n0] treeB true).get? 0 =
      some (sb_point cfgB treeB p0 n0) := rfl

/-- Witness for C7 at the concrete two-point input: slot 0 emits feature
index 1, which is in range and distinct from 0. -/
theorem sb_points_qidx_valid_distinct_wit :
    (treeB.the_data = [p0, b0] ∧ treeB.Valid ∧ ([p0, b0] : List Vec3).Nodup ∧
      (sb_points cfgB [p0, b0] [n0, n0] treeB true).get? 0 =
        some (some (.ok ⟨some (p0 - (1/2 : ℝ) • n0), 1⟩)) ∧
      (⟨some (p0 - (1/2 : ℝ) • n0), 1⟩ : ma_result).qidx ≠ -1) ∧
    (0 ≤ (⟨some (p0 - (1/2 : ℝ) • n0), 1⟩ : ma_result).qidx ∧
      (⟨some (p0 - (1/2 : ℝ) • n0), 1⟩ : ma_result).qidx <
        (([p0, b0] : List Vec3).length : ℤ) ∧
      (⟨some (p0 - (1/2 : ℝ) • n0), 1⟩ : ma_result).qidx ≠ ((0 : ℕ) : ℤ)) := by
  have hrun : (sb_points cfgB [p0, b0] [n0, n0] treeB true).get? 0 =
      some (some (.ok ⟨some (p0 - (1/2 : ℝ) • n0), 1⟩)) := by
    rw [sb_points_entry0, runB]
  have hnd : ([p0, b0] : List Vec3).Nodup := treeB_data_nodup
  refine ⟨⟨rfl, treeB_valid, hnd, hrun, by norm_num⟩, ?_⟩
  exact sb_points_qidx_valid_distinct cfgB [p0, b0] [n0, n0] treeB true 0
    ⟨some (p0 - (1/2 : ℝ) • n0), 1⟩ rfl treeB_valid hnd hrun (by norm_num)

/-- Claim C9: `cos_angle` returns the raw dot-product cosine clamped to
`[-1, 1]`: values above 1 become exactly 1, values below -1 become exactly
-1, and the result always lies in `[-1, 1]` (the valid arccosine domain
used by the denoising logic). -/
theorem cos_angle_clamped (u v : Vec3) :
    cos_angle u v = max (-1) (min 1 (u.dot v / (u.mag * v.mag))) ∧
    -1 ≤ cos_angle u v ∧ cos_angle u v ≤ 1 := by
  have hca : cos_angle u v =
      (if u.dot v / (u.mag * v.mag) > 1 then 1
       else if u.dot v / (u.mag * v.mag) < -1 then -1
       else u.dot v / (u.mag * v.mag)) := rfl
  rw [hca]
  split_ifs with h1 h2
  · refine ⟨?_, by norm_num, le_refl 1⟩
    rw [min_eq_left (le_of_lt h1)]
    norm_num
  · refine ⟨?_, le_refl (-1), by norm_num⟩
    rw [min_eq_right (by linarith), max_eq_left (le_of_lt h2)]
  · have hle : u.dot v / (u.mag * v.mag) ≤ 1 := not_lt.mp h1
    have hge : -1 ≤ u.dot v / (u.mag * v.mag) := not_lt.mp h2
    refine ⟨?_, hge, hle⟩
    rw [min_eq_right hle, max_eq_right hge]

/-- Witness for C9 at a concrete pair of vectors. -/
theorem cos_angle_clamped_wit :
    cos_angle n0 b0 = max (-1) (min 1 (n0.dot b0 / (n0.mag * b0.mag))) ∧
    -1 ≤ cos_angle n0 b0 ∧ cos_angle n0 b0 ≤ 1 :=
  cos_angle_clamped n0 b0

/-- Componentwise expansion of the squared distance from a shifted center. -/
theorem Vec3.dot_expand (p n q : Vec3) (r : ℝ) :
    ((p - r • n) - q).dot ((p - r • n) - q) =
      (p - q).dot (p - q) - 2 * r * (n.dot (p - q)) + r ^ 2 * (n.dot n) := by
  obtain ⟨px, py, pz⟩ := p
  obtain ⟨nx, ny, nz⟩ := n
  obtain ⟨qx, qy, qz⟩ := q
  unfold Vec3.dot
  simp only [Vec3.sub_def, Vec3.smul_def]
  ring

/-- Claim C8: `compute_radius(p, n, q)` is exactly `d / (2·cosθ)` with
`d = |p-q|` and `cosθ = n·(p-q)/d`, i.e. (clearing the denominators)
`d² / (2·n·(p-q))`; and this is the signed radius of the ball centered at
`c = p - r•n` on the normal line through `p` that is tangent at `p`
(`|c - p| = |r|`) and passes through `q` (`|c - q| = |r|`), for a unit
normal and a point `q` distinct from `p` and off the tangent plane. -/
theorem compute_radius_tangent_ball (p n q : Vec3)
    (hqp : q ≠ p) (hn : n.mag = 1) (hdot : n.dot (p - q) ≠ 0) :
    compute_radius p n q =
      ((p - q).mag * (p - q).mag) / (2 * n.dot (p - q)) ∧
    ((p - compute_radius p n q • n) - q).mag = |compute_radius p n q| ∧
    ((p - compute_radius p n q • n) - p).mag = |compute_radius p n q| := by
  have hd : 0 < (p - q).mag := mag_sub_pos hqp
  have hd2 : (p - q).mag * (p - q).mag = (p - q).dot (p - q) :=
    Real.mul_self_sqrt (Vec3.dot_self_nonneg _)
  have hnn : n.dot n = 1 := by
    have h : Real.sqrt (n.dot n) ^ 2 = n.dot n :=
      Real.sq_sqrt (Vec3.dot_self_nonneg n)
    have h' : n.mag ^ 2 = n.dot n := h
    rw [hn] at h'
    simpa using h'.symm
  have hr : compute_radius p n q =
      ((p - q).mag * (p - q).mag) / (2 * n.dot (p - q)) := by
    show (p - q).mag / (2 * (n.dot (p - q) / (p - q).mag)) = _
    rw [show (2 : ℝ) * (n.dot (p - q) / (p - q).mag) =
      (2 * n.dot (p - q)) / (p - q).mag from by ring, div_div_eq_mul_div]
  refine ⟨hr, ?_, ?_⟩
  · have h2r : 2 * compute_radius p n q * (n.dot (p - q)) =
        (p - q).dot (p - q) := by
      have h2d : (2 : ℝ) * n.dot (p - q) ≠ 0 := mul_ne_zero two_ne_zero hdot
      calc 2 * compute_radius p n q * (n.dot (p - q)) =
          2 * (((p - q).mag * (p - q).mag) / (2 * n.dot (p - q))) *
            (n.dot (p - q)) := by rw [hr]
        _ = ((p - q).mag * (p - q).mag) * (2 * n.dot (p - q)) /
            (2 * n.dot (p - q)) := by ring
        _ = (p - q).mag * (p - q).mag := mul_div_cancel_right₀ _ h2d
        _ = (p - q).dot (p - q) := hd2
    have hdot2 : ((p - compute_radius p n q • n) - q).dot
        ((p - compute_radius p n q • n) - q) = compute_radius p n q ^ 2 := by
      rw [Vec3.dot_expand, hnn, mul_one]
      linarith [h2r]
    show Real.sqrt (((p - compute_radius p n q • n) - q).dot
      ((p - compute_radius p n q • n) - q)) = |compute_radius p n q|
    rw [hdot2, Real.sqrt_sq_eq_abs]
  · have hpp : (p - p : Vec3) = (⟨0, 0, 0⟩ : Vec3) := Vec3.sub_eq_zero_iff.mpr rfl
    have h0 : (p - p).dot (p - p) = 0 := by
      rw [hpp]
      unfold Vec3.dot
      norm_num
    have h0' : n.dot (p - p) = 0 := by
      rw [hpp]
      unfold Vec3.dot
      norm_num
    have hdot2 : ((p - compute_radius p n q • n) - p).dot
        ((p - compute_radius p n q • n) - p) = compute_radius p n q ^ 2 := by
      rw [Vec3.dot_expand, hnn, mul_one, h0, h0']
      ring
    show Real.sqrt (((p - compute_radius p n q • n) - p).dot
      ((p - compute_radius p n q • n) - p)) = |compute_radius p n q|
    rw [hdot2, Real.sqrt_sq_eq_abs]

/-- Witness for C8 at a concrete input: `p0`, unit normal `n0`, `q = b0`;
the radius is 1/2 and the ball centered at `p0 - (1/2)•n0` is tangent at
`p0` and passes through `b0`. -/
theorem compute_radius_tangent_ball_wit :
    (b0 ≠ p0 ∧ n0.mag = 1 ∧ n0.dot (p0 - b0) ≠ 0) ∧
    (compute_radius p0 n0 b0 =
        ((p0 - b0).mag * (p0 - b0).mag) / (2 * n0.dot (p0 - b0)) ∧
      ((p0 - compute_radius p0 n0 b0 • n0) - b0).mag = |compute_radius p0 n0 b0| ∧
      ((p0 - compute_radius p0 n0 b0 • n0) - p0).mag = |compute_radius p0 n0 b0|) := by
  have h1 : b0 ≠ p0 := by simp [b0, p0, Vec3.mk.injEq]
  have h2 : n0.mag = 1 := by
    unfold Vec3.mag Vec3.dot
    norm_num [n0, Real.sqrt_one]
  have h3 : n0.dot (p0 - b0) ≠ 0 := by
    unfold Vec3.dot
    norm_num [n0, p0, b0]
  exact ⟨⟨h1, h2, h3⟩, compute_radius_tangent_ball p0 n0 b0 h1 h2 h3⟩

/-- When neither denoising rule fires, the body falls through to the
convergence/cap/commit tail. -/
theorem post_radius_skip_denoise (cfg : MAConfig) (p n : Vec3) (s : SBState)
    (i : ℕ) (q : Vec3) (r : ℝ)
    (hpres : ¬(cfg.denoise_preserve ≠ 0 ∧
      (Real.arccos (cos_angle (p - (p - r • n)) (q - (p - r • n))) <
        cfg.denoise_preserve ∧ 0 < s.j ∧ (q - p).mag < r)))
    (hplan : ¬(cfg.denoise_planar ≠ 0 ∧
      (Real.arccos (cos_angle (p - (p - r • n)) (q - (p - r • n))) <
        cfg.denoise_planar ∧ s.j = 0))) :
    post_radius cfg p n s i q r = post_denoise s i r (p - r • n) := by
  have hpr : post_radius cfg p n s i q r =
      (if cfg.denoise_preserve ≠ 0 ∨ cfg.denoise_planar ≠ 0 then
        if cfg.denoise_preserve ≠ 0 ∧
            (Real.arccos (cos_angle (p - (p - r • n)) (q - (p - r • n))) <
              cfg.denoise_preserve ∧ 0 < s.j ∧ (q - p).mag < r) then
          StepRes.brk ⟨some s.c, s.qidx⟩
        else if cfg.denoise_planar ≠ 0 ∧
            (Real.arccos (cos_angle (p - (p - r • n)) (q - (p - r • n))) <
              cfg.denoise_planar ∧ s.j = 0) then
          StepRes.brk ⟨(if cfg.nan_for_initr then none
            else some (p - cfg.initial_radius • n)), s.qidx⟩
        else post_denoise s i r (p - r • n)
      else post_denoise s i r (p - r • n)) := rfl
  rw [hpr]
  by_cases h1 : cfg.denoise_preserve ≠ 0 ∨ cfg.denoise_planar ≠ 0
  · rw [if_pos h1, if_neg hpres, if_neg hplan]
  · rw [if_neg h1]

/-- The convergence test or the iteration cap always breaks with the
*current* center and feature index. -/
theorem post_denoise_brk_of_stop (s : SBState) (i : ℕ) (r : ℝ) (c' : Vec3)
    (hstop : |s.r_previous - r| < delta_convergance ∨ iteration_limit < s.j) :
    post_denoise s i r c' = .brk ⟨some s.c, s.qidx⟩ := by
  unfold post_denoise
  by_cases h1 : |s.r_previous - r| < delta_convergance
  · rw [if_pos h1]
  · rw [if_neg h1, if_pos (hstop.resolve_left h1)]

/-- Claim C10: when the loop stops via the convergence test or the
iteration cap, it returns the *current* state's center — the one committed
at the previous iteration, or the initial `p - n*initial_radius` if nothing
has committed — together with the current feature index, never the freshly
computed `c_next`; and in general every `break` returns either the current
center or the `initial_radius`/NaN center (only the self-match,
ceiling-guard and planar-denoise branches overwrite the center before
returning). -/
theorem sb_step_stale_center_on_convergence (cfg : MAConfig) (tree : KDTree)
    (p n : Vec3) (s : SBState) (i : ℕ) (q : Vec3) (r1 : ℝ)
    (hq : qstep cfg tree p s = .ok i q)
    (hr1 : r1 = if compute_radius p n q < 0 then cfg.initial_radius
      else compute_radius p n q)
    (hceil : compute_radius p n q < 0 ∨
      ¬ cfg.initial_radius < compute_radius p n q)
    (hpres : ¬(cfg.denoise_preserve ≠ 0 ∧
      (Real.arccos (cos_angle (p - (p - r1 • n)) (q - (p - r1 • n))) <
        cfg.denoise_preserve ∧ 0 < s.j ∧ (q - p).mag < r1)))
    (hplan : ¬(cfg.denoise_planar ≠ 0 ∧
      (Real.arccos (cos_angle (p - (p - r1 • n)) (q - (p - r1 • n))) <
        cfg.denoise_planar ∧ s.j = 0)))
    (hstop : |s.r_previous - r1| < delta_convergance ∨ iteration_limit < s.j) :
    sb_step cfg tree p n s = .brk ⟨some s.c, s.qidx⟩ ∧
    (∀ s' : SBState, ∀ res : ma_result, sb_step cfg tree p n s' = .brk res →
      res.c = some s'.c ∨
        res.c = (if cfg.nan_for_initr then none
          else some (p - cfg.initial_radius • n))) := by
  constructor
  · by_cases hneg : compute_radius p n q < 0
    · have hr1' : r1 = cfg.initial_radius := by rw [hr1, if_pos hneg]
      subst hr1'
      have hstep : sb_step cfg tree p n s =
          post_radius cfg p n s i q cfg.initial_radius := by
        unfold sb_step
        rw [hq]
        dsimp only []
        rw [if_pos hneg]
      rw [hstep, post_radius_skip_denoise cfg p n s i q _ hpres hplan,
        post_denoise_brk_of_stop s i _ _ hstop]
    · have hceil' : ¬ cfg.initial_radius < compute_radius p n q :=
        hceil.resolve_left hneg
      have hr1' : r1 = compute_radius p n q := by rw [hr1, if_neg hneg]
      subst hr1'
      have hstep : sb_step cfg tree p n s =
          post_radius cfg p n s i q (compute_radius p n q) := by
        unfold sb_step
        rw [hq]
        dsimp only []
        rw [if_neg hneg, if_neg hceil']
      rw [hstep, post_radius_skip_denoise cfg p n s i q _ hpres hplan,
        post_denoise_brk_of_stop s i _ _ hstop]
  · intro s' res hstep
    rcases sb_step_cases cfg tree p n s' with ⟨h', _⟩ | ⟨res'', h', _, hcopt⟩ |
      ⟨_, _, _, _, h', _, _⟩
    · rw [h'] at hstep
      exact absurd hstep (by simp)
    · rw [h'] at hstep
      have hres : res'' = res := by injection hstep
      subst hres
      exact hcopt
    · rw [h'] at hstep
      exact absurd hstep (by simp)

/-- Witness for C10 at the concrete convergence stop on `treeB`. -/
theorem sb_step_stale_center_on_convergence_wit :
    (qstep cfgB treeB p0 s1B = .ok 1 b0 ∧
      ((1/2 : ℝ) = if compute_radius p0 n0 b0 < 0 then cfgB.initial_radius
        else compute_radius p0 n0 b0) ∧
      (compute_radius p0 n0 b0 < 0 ∨
        ¬ cfgB.initial_radius < compute_radius p0 n0 b0) ∧
      (|s1B.r_previous - (1/2 : ℝ)| < delta_convergance ∨
        iteration_limit < s1B.j)) ∧
    sb_step cfgB treeB p0 n0 s1B = .brk ⟨some s1B.c, s1B.qidx⟩ := by
  have h2 : (1/2 : ℝ) = if compute_radius p0 n0 b0 < 0 then cfgB.initial_radius
      else compute_radius p0 n0 b0 := by
    rw [cr_b0]
    norm_num
  have h3 : compute_radius p0 n0 b0 < 0 ∨
      ¬ cfgB.initial_radius < compute_radius p0 n0 b0 := by
    rw [cr_b0]
    exact Or.inr (by norm_num [cfgB])
  have h5 : |s1B.r_previous - (1/2 : ℝ)| < delta_convergance ∨
      iteration_limit < s1B.j := by
    exact Or.inl (by norm_num [s1B, delta_convergance])
  refine ⟨⟨qstep_s1B, h2, h3, h5⟩, ?_⟩
  exact (sb_step_stale_center_on_convergence cfgB treeB p0 n0 s1B 1 b0 (1/2)
    qstep_s1B h2 h3 (by norm_num [cfgB]) (by norm_num [cfgB]) h5).1
